import Mathlib

/-!
Verification of the obsidian-auto-filename plugin (src/src/main.ts).

The plugin derives a filename stem from the leading characters of a note,
normalizes it, resolves collisions by appending " (n)" suffixes, and renames
the note.  Document text and paths are modelled as `List Char` (a JS string
is a sequence of code units; all characters relevant to the claims are plain
scalars).  Each definition below mirrors one expression or statement block of
`main.ts`; line references are given in the doc comments.
-/

namespace AutoFilename

/-- The `PluginSettings` interface of main.ts (lines 3-12).  `charCount` and
`checkInterval` are numbers used as non-negative integers. -/
structure PluginSettings where
  targetFolder : List Char
  includeSubfolder : Bool
  useHeader : Bool
  useFirstLine : Bool
  isTitleHidden : Bool
  supportYAML : Bool
  charCount : Nat
  checkInterval : Nat
deriving DecidableEq, Repr

/-- The `DEFAULT_SETTINGS` constant of main.ts (lines 14-23). -/
def DEFAULT_SETTINGS : PluginSettings :=
  { targetFolder := []
    includeSubfolder := false
    useHeader := true
    useFirstLine := false
    isTitleHidden := true
    supportYAML := true
    charCount := 50
    checkInterval := 500 }

/-- The whitespace class used by the JS string methods `trim`, `trimStart`,
`trimEnd` and the regex `\s` in main.ts. -/
def isSpaceB (c : Char) : Bool :=
  (c == ' ') || (c == '\t') || (c == '\n') || (c == '\r') ||
    (c == '\x0b') || (c == '\x0c') || (c == Char.ofNat 160) || (c == Char.ofNat 65279)

/-- JS `String.prototype.trimStart`. -/
def trimStartWS (l : List Char) : List Char := l.dropWhile isSpaceB

/-- JS `String.prototype.trimEnd`. -/
def trimEndWS (l : List Char) : List Char := (l.reverse.dropWhile isSpaceB).reverse

/-- JS `String.prototype.trim`. -/
def trimWS (l : List Char) : List Char := trimEndWS (trimStartWS l)

/-- JS `.replace(/\s+/g, " ")` (main.ts line 160): every maximal run of
whitespace characters becomes a single space. -/
def collapseWS : List Char → List Char
  | [] => []
  | [c] => if isSpaceB c then [' '] else [c]
  | c1 :: c2 :: rest =>
    if isSpaceB c1 && isSpaceB c2 then collapseWS (c2 :: rest)
    else c1 :: collapseWS (c2 :: rest)

/-- Index of the first occurrence of `pat` as a contiguous sublist of `hay`
(JS `String.prototype.indexOf` with start position 0). -/
def subIndex : List Char → List Char → Option Nat
  | hay, pat =>
    if pat.isPrefixOf hay then some 0
    else
      match hay with
      | [] => none
      | _ :: t => (subIndex t pat).map (fun k => k + 1)

/-- The YAML front-matter skipping step of `renameFile` (main.ts lines 82-85):
if enabled and the content starts with the substring `---`, find the first
occurrence of the substring `---` at index >= 3; when found, drop everything
through it and strip leading whitespace, otherwise leave the content alone. -/
def yamlStrip (supportYAML : Bool) (content : List Char) : List Char :=
  if supportYAML && (("---").data).isPrefixOf content then
    match subIndex (content.drop 3) (("---").data) with
    | some k => trimStartWS (content.drop ((k + 3) + 3))
    | none => content
  else content

/-- The `headerArr` constant of main.ts (lines 89-96). -/
def headerArr : List (List Char) :=
  [("# ").data, ("## ").data, ("### ").data, ("#### ").data,
    ("##### ").data, ("###### ").data]

/-- The header-extraction step of `renameFile` (main.ts lines 88-104): if
enabled and the content starts with `#`, the first matching marker `"#"*(i+1)
++ " "` selects `content.slice(i + 2, indexOf "\n")` when a newline exists. -/
def headerExtract (useHeader : Bool) (content : List Char) : List Char :=
  if useHeader && content.head? == some '#' then
    match headerArr.findIdx? (fun h => h.isPrefixOf content) with
    | some i =>
      match subIndex content (['\n']) with
      | some idx => (content.drop (i + 2)).take (idx - (i + 2))
      | none => content
    | none => content
  else content

/-- The `illegalChars` constant of main.ts (line 106). -/
def illegalChars : List Char :=
  ['\\', '/', ':', '*', '?', '\"', '<', '>', '|', '#', '^', '[', ']']

/-- Membership test in `illegalChars` (JS `illegalChars.includes(char)`). -/
def isIllegalChar (c : Char) : Bool := decide (c ∈ illegalChars)

/-- The ellipsis marker `"..."` appended on truncation (main.ts lines 140, 149). -/
def ellipsis : List Char := ['.', '.', '.']

/-- The character scan of `renameFile` (main.ts lines 136-156).  `i` is the
loop index over the remaining content, `acc` the buffer `newFileName`.  The
loop body first breaks with the ellipsis when `i >= charCount`, then breaks
with the ellipsis on a newline when `useFirstLine` is on, and otherwise
appends the character unless it is illegal. -/
def scanStem (cc : Nat) (useFirstLine : Bool) : Nat → List Char → List Char → List Char
  | _, [], acc => acc
  | i, c :: rest, acc =>
    if i ≥ cc then trimEndWS acc ++ ellipsis
    else if c == '\n' && useFirstLine then trimEndWS acc ++ ellipsis
    else if isIllegalChar c then scanStem cc useFirstLine (i + 1) rest acc
    else scanStem cc useFirstLine (i + 1) rest (acc ++ [c])

/-- The `illegalNames` constant of main.ts (lines 107-132). -/
def illegalNames : List (List Char) :=
  [("CON").data, ("PRN").data, ("AUX").data, ("NUL").data,
    ("COM1").data, ("COM2").data, ("COM3").data, ("COM4").data, ("COM5").data,
    ("COM6").data, ("COM7").data, ("COM8").data, ("COM9").data, ("COM0").data,
    ("LPT1").data, ("LPT2").data, ("LPT3").data, ("LPT4").data, ("LPT5").data,
    ("LPT6").data, ("LPT7").data, ("LPT8").data, ("LPT9").data, ("LPT0").data]

/-- The fallback name `"Untitled"` (main.ts line 171). -/
def untitled : List Char := ("Untitled").data

/-- The raw buffer produced by the scan for a given content: YAML skipping,
header extraction and the character scan (main.ts lines 82-156). -/
def stemAfterScan (s : PluginSettings) (content : List Char) : List Char :=
  scanStem s.charCount s.useFirstLine 0
    (headerExtract s.useHeader (yamlStrip s.supportYAML content)) []

/-- The normalization `newFileName.trim().replace` collapsing whitespace to single spaces (main.ts lines 158-160). -/
def normalizedStem (s : PluginSettings) (content : List Char) : List Char :=
  collapseWS (trimWS (stemAfterScan s content))

/-- The leading-dot removal loop (main.ts lines 163-165). -/
def strippedStem (s : PluginSettings) (content : List Char) : List Char :=
  (normalizedStem s content).dropWhile (fun c => c == '.')

/-- The complete filename-stem derivation of `renameFile` (main.ts lines
82-171), ending with the `Untitled` fallback for empty or reserved names. -/
def deriveName (s : PluginSettings) (content : List Char) : List Char :=
  let n := strippedStem s content
  if n = [] ∨ (n.map Char.toUpper) ∈ illegalNames then untitled else n

/-- The first segment of a folder path: JS `path.split("/")[0]`
(main.ts line 42). -/
def firstSegment (p : List Char) : List Char := p.takeWhile (fun c => decide (c ≠ '/'))

/-- The function `inTargetFolder` of main.ts (lines 34-49).  `parentPath` is
`file.parent?.path` (`none` when the file has no parent). -/
def inTargetFolder (parentPath : Option (List Char)) (s : PluginSettings) : Bool :=
  if s.targetFolder = [] then false
  else if s.includeSubfolder then
    if s.targetFolder = ['/'] then true
    else
      match parentPath with
      | some p => decide (firstSegment p = s.targetFolder)
      | none => false
  else decide (parentPath = some s.targetFolder)

/-- Decimal rendering with explicit fuel (the fuel is structural so that
terms reduce; `toDecimal` supplies enough fuel for any argument). -/
def toDecimalAux : Nat → Nat → List Char
  | 0, _ => []
  | fuel + 1, n =>
    if n < 10 then [Nat.digitChar n]
    else toDecimalAux fuel (n / 10) ++ [Nat.digitChar (n % 10)]

/-- Decimal rendering of a counter, as JS template interpolation
`${counter}` renders an integer. -/
def toDecimal (n : Nat) : List Char := toDecimalAux (n + 1) n

/-- Decimal parsing, used only to establish that `toDecimal` is injective. -/
def fromDecimal (l : List Char) : Nat :=
  l.foldl (fun a c => a * 10 + (c.toNat - 48)) 0

/-- The n-th candidate destination path probed by the duplicate checker:
`${parent}/${stem}.md` for n = 1 (main.ts line 173) and
`${parent}/${stem} (${n}).md` for n ≥ 2 (main.ts line 182). -/
def candidate (parentPath stem : List Char) (n : Nat) : List Char :=
  if n = 1 then parentPath ++ '/' :: (stem ++ ['.', 'm', 'd'])
  else parentPath ++ '/' :: (stem ++ ' ' :: '(' :: (toDecimal n ++ [')', '.', 'm', 'd']))

/-- A candidate path counts as occupied when storage holds a file at it
(`getAbstractFileByPath(newPath) != null`) or it is reserved in
`tempNewPaths` (main.ts lines 177-179, 183). -/
def occupiedPath (vault temp : List (List Char)) (p : List Char) : Prop :=
  p ∈ vault ∨ p ∈ temp

instance (vault temp : List (List Char)) (p : List Char) :
    Decidable (occupiedPath vault temp p) := by
  unfold occupiedPath; infer_instance

/-- The duplicate-checker loop of `renameFile` (main.ts lines 176-184),
with explicit fuel (the loop terminates because only finitely many paths are
occupied; `dupLoop_with_enough_fuel` below shows the fuel used by
`renameCore` always suffices).  Result: `none` = fuel exhausted (never
happens), `some none` = the early `return` taken because a probed occupied
candidate equals the file's own path, `some (some p)` = the loop committed
to the unoccupied path `p`. -/
def dupLoop (vault temp : List (List Char)) (filePath parentPath stem : List Char) :
    Nat → Nat → Option (Option (List Char))
  | 0, _ => none
  | fuel + 1, counter =>
    let p := candidate parentPath stem counter
    if occupiedPath vault temp p then
      if filePath = p then some none
      else dupLoop vault temp filePath parentPath stem fuel (counter + 1)
    else some (some p)

/-- Outcome of one `renameFile` body: either the early `return` inside the
duplicate checker (no rename issued) or a committed rename to `newPath`. -/
inductive RenameOutcome where
  | unchanged
  | renamed (newPath : List Char)
deriving DecidableEq, Repr

/-- State produced by one `renameFile` body: the outcome together with the
updated globals `tempNewPaths` and `renamedFileCount` (main.ts lines 26-27). -/
structure RenameResult where
  outcome : RenameOutcome
  tempNewPaths : List (List Char)
  renamedFileCount : Nat
deriving DecidableEq, Repr

/-- The body of `renameFile` after the eligibility check and debounce
(main.ts lines 79-194): derive the stem from the content, run the duplicate
checker starting from `${parent}/${stem}.md`, then (unless the early return
fired) push the winning path onto `tempNewPaths` when `noDelay` is set,
issue the storage rename and increment `renamedFileCount`. -/
def renameCore (vault temp : List (List Char)) (count : Nat) (s : PluginSettings)
    (filePath parentPath content : List Char) (noDelay : Bool) : RenameResult :=
  let stem := deriveName s content
  match dupLoop vault temp filePath parentPath stem (vault.length + temp.length + 2) 1 with
  | none => ⟨.unchanged, temp, count⟩
  | some none => ⟨.unchanged, temp, count⟩
  | some (some p) => ⟨.renamed p, if noDelay then temp ++ [p] else temp, count + 1⟩

/-- A document as seen by the batch operation: its current path, the path of
its parent folder and its content. -/
structure DocFile where
  path : List Char
  parentPath : List Char
  content : List Char
deriving DecidableEq, Repr

/-- The "Rename all files" batch (main.ts lines 415-439): every file is
processed with `noDelay = true`; each call probes the shared `tempNewPaths`
and appends its winning path to it before its storage rename is issued, so
the check-and-reserve step of each document is atomic with respect to the
others.  The batch threads `tempNewPaths` and `renamedFileCount` through the
calls and records each document's outcome. -/
def runBatch (vault : List (List Char)) (s : PluginSettings) :
    List DocFile → List (List Char) → Nat →
      List (DocFile × RenameOutcome) × List (List Char) × Nat
  | [], temp, count => ([], temp, count)
  | d :: ds, temp, count =>
    let r := renameCore vault temp count s d.path d.parentPath d.content true
    let rest := runBatch vault s ds r.tempNewPaths r.renamedFileCount
    ((d, r.outcome) :: rest.1, rest.2)

/-- The path a document occupies after the batch: its new path when it was
renamed, its original path otherwise. -/
def finalPath (d : DocFile) (o : RenameOutcome) : List Char :=
  match o with
  | .unchanged => d.path
  | .renamed p => p

/-- The module-level debounce state of main.ts (lines 29-32) together with
the host timer machinery it manipulates: `onTimeout`, the single `timeout`
handle, the single `previousFile` variable, the set of armed timers
(`pending`: id, due time, file path), a fresh-id counter, and the log of
derive/rename body executions (path, time) for observation. -/
structure DebounceState where
  onTimeout : Bool
  timeoutHandle : Option Nat
  previousFile : Option (List Char)
  pending : List (Nat × Nat × List Char)
  nextId : Nat
  executions : List (List Char × Nat)
deriving DecidableEq, Repr

/-- Initial debounce state: `onTimeout = true` (main.ts line 30), no timer
armed, `previousFile` unset. -/
def initDebounce : DebounceState :=
  ⟨true, none, none, [], 0, []⟩

/-- One call of `renameFile(file)` with `noDelay = false` for an eligible
file at `p`, at time `t` (main.ts lines 59-77 and the body): when
`onTimeout` is set, `clearTimeout(timeout)` fires only if `previousFile`
equals the file's path, `previousFile` is overwritten, and a fresh timer is
armed `interval` later; otherwise `onTimeout` is reset and the body
(content read, derivation, rename) executes. -/
def renameCallDeb (interval t : Nat) (p : List Char) (st : DebounceState) : DebounceState :=
  if st.onTimeout then
    let cleared :=
      if st.previousFile = some p then
        match st.timeoutHandle with
        | some h => st.pending.filter (fun e => decide (e.1 ≠ h))
        | none => st.pending
      else st.pending
    { st with
      pending := cleared ++ [(st.nextId, t + interval, p)]
      previousFile := some p
      timeoutHandle := some st.nextId
      nextId := st.nextId + 1 }
  else { st with onTimeout := true, executions := st.executions ++ [(p, t)] }

/-- An armed timer firing at its due time (main.ts lines 68-71): the timer
leaves the pending set, `onTimeout` is cleared, and the callback re-enters
`renameFile` for the remembered file. -/
def fireTimer (interval : Nat) (e : Nat × Nat × List Char) (st : DebounceState) : DebounceState :=
  renameCallDeb interval e.2.1 e.2.2
    { st with pending := st.pending.filter (fun x => decide (x.1 ≠ e.1)), onTimeout := false }

/-- The armed timer with the smallest due time, if any. -/
def earliestTimer (l : List (Nat × Nat × List Char)) : Option (Nat × Nat × List Char) :=
  l.foldl
    (fun acc e =>
      match acc with
      | none => some e
      | some b => if e.2.1 < b.2.1 then some e else acc)
    none

/-- Discrete-event execution of the debounce logic: `edits` is the
time-ordered list of modify events (time, file path) handed to
`renameFile`; between and after the edits, armed timers fire at their due
times.  The earliest event (edit or timer due) is processed first; a timer
due strictly before the next edit fires first.  `fuel` bounds the number of
processed events (each edit arms at most one timer, so
`2 * edits.length + pending.length` events suffice). -/
def simulate (interval : Nat) : Nat → List (Nat × List Char) → DebounceState → DebounceState
  | 0, _, st => st
  | fuel + 1, [], st =>
    match earliestTimer st.pending with
    | none => st
    | some e => simulate interval fuel [] (fireTimer interval e st)
  | fuel + 1, (t, p) :: rest, st =>
    match earliestTimer st.pending with
    | none => simulate interval fuel rest (renameCallDeb interval t p st)
    | some e =>
      if e.2.1 < t then simulate interval fuel ((t, p) :: rest) (fireTimer interval e st)
      else simulate interval fuel rest (renameCallDeb interval t p st)

/-- The character scan as worded by claim C6 (spec §4.1 step 3): identical
to `scanStem` except that the scan index counts only output-eligible
characters, so characters rejected as illegal do not advance it toward the
`maxStemLength` limit.  Used only to compare the spec's wording with the
source's `scanStem`. -/
def scanStemSpecC6 (cc : Nat) (useFirstLine : Bool) : Nat → List Char → List Char → List Char
  | _, [], acc => acc
  | i, c :: rest, acc =>
    if i ≥ cc then trimEndWS acc ++ ellipsis
    else if c == '\n' && useFirstLine then trimEndWS acc ++ ellipsis
    else if isIllegalChar c then scanStemSpecC6 cc useFirstLine i rest acc
    else scanStemSpecC6 cc useFirstLine (i + 1) rest (acc ++ [c])

/-- Split a character list into its lines at newline characters. -/
def splitLines : List Char → List (List Char)
  | [] => [[]]
  | c :: rest =>
    if c = '\n' then [] :: splitLines rest
    else
      match splitLines rest with
      | [] => [[c]]
      | h :: t => (c :: h) :: t

/-- Front-matter skipping as worded by claim C7 (spec §4.1 step 1): it fires
only when the first line consists solely of three hyphens; a closing
delimiter is likewise a whole line consisting solely of three hyphens;
everything up to and including the closing line is dropped and leading
whitespace is stripped; with no closing line the content is unchanged.
Used only to compare the spec's wording with the source's `yamlStrip`. -/
def frontMatterSpecC7 (content : List Char) : List Char :=
  match splitLines content with
  | [] => content
  | l0 :: rest =>
    if l0 = ("---").data then
      match rest.findIdx? (fun l => l == ("---").data) with
      | some i => trimStartWS (List.intercalate ['\n'] (rest.drop (i + 1)))
      | none => content
    else content

theorem mem_trimEndWS {c : Char} {l : List Char} (h : c ∈ trimEndWS l) : c ∈ l := by
  unfold trimEndWS at h
  rw [List.mem_reverse] at h
  exact List.mem_reverse.mp ((List.dropWhile_sublist isSpaceB).subset h)

theorem mem_trimStartWS {c : Char} {l : List Char} (h : c ∈ trimStartWS l) : c ∈ l :=
  (List.dropWhile_sublist isSpaceB).subset h

theorem mem_trimWS {c : Char} {l : List Char} (h : c ∈ trimWS l) : c ∈ l :=
  mem_trimStartWS (mem_trimEndWS h)

theorem mem_collapseWS {c : Char} : ∀ {l : List Char}, c ∈ collapseWS l → c = ' ' ∨ c ∈ l
  | [], h => by simp [collapseWS] at h
  | [a], h => by
    unfold collapseWS at h
    by_cases ha : isSpaceB a
    · simp [ha] at h; exact Or.inl h
    · simp [ha] at h; exact Or.inr (by simp [h])
  | a :: b :: rest, h => by
    unfold collapseWS at h
    by_cases hab : isSpaceB a && isSpaceB b
    · simp only [hab, if_pos] at h
      rcases mem_collapseWS h with h1 | h1
      · exact Or.inl h1
      · exact Or.inr (List.mem_cons_of_mem a h1)
    · simp only [hab, if_neg, Bool.false_eq_true, not_false_iff] at h
      rcases List.mem_cons.mp h with h1 | h1
      · exact Or.inr (by simp [h1])
      · rcases mem_collapseWS h1 with h2 | h2
        · exact Or.inl h2
        · exact Or.inr (List.mem_cons_of_mem a h2)

theorem head?_dropWhileB {p : Char → Bool} :
    ∀ {l : List Char} {c : Char}, (l.dropWhile p).head? = some c → p c = false
  | [], c, h => by simp [List.dropWhile] at h
  | a :: rest, c, h => by
    rw [List.dropWhile_cons] at h
    by_cases ha : p a
    · simp only [ha, if_pos] at h
      exact head?_dropWhileB h
    · simp only [ha, Bool.false_eq_true, if_neg, not_false_iff, List.head?_cons,
        Option.some.injEq] at h
      subst h
      exact Bool.eq_false_iff.mpr ha

theorem ellipsis_legal {c : Char} (h : c ∈ ellipsis) : isIllegalChar c = false := by
  fin_cases h <;> decide

theorem scanStem_chars {cc : Nat} {ufl : Bool} :
    ∀ {rest : List Char} {i : Nat} {acc : List Char} {c : Char},
      (∀ x ∈ acc, isIllegalChar x = false) →
      c ∈ scanStem cc ufl i rest acc → isIllegalChar c = false
  | [], _, _, _, hacc, h => hacc _ h
  | r :: rest, i, acc, c, hacc, h => by
    unfold scanStem at h
    have htrim : ∀ x ∈ trimEndWS acc ++ ellipsis, isIllegalChar x = false := by
      intro x hx
      rcases List.mem_append.mp hx with hx | hx
      · exact hacc _ (mem_trimEndWS hx)
      · exact ellipsis_legal hx
    by_cases h1 : i ≥ cc
    · simp only [h1, if_pos] at h
      exact htrim _ h
    · simp only [h1, if_neg, not_false_iff] at h
      by_cases h2 : r == '\n' && ufl
      · simp only [h2, if_pos] at h
        exact htrim _ h
      · simp only [h2, Bool.false_eq_true, if_neg, not_false_iff] at h
        by_cases h3 : isIllegalChar r
        · simp only [h3, if_pos] at h
          exact scanStem_chars hacc h
        · simp only [h3, Bool.false_eq_true, if_neg, not_false_iff] at h
          refine scanStem_chars (fun x hx => ?_) h
          rcases List.mem_append.mp hx with hx | hx
          · exact hacc _ hx
          · rw [List.mem_singleton.mp hx]
            exact Bool.eq_false_iff.mpr h3

theorem untitled_legal {c : Char} (h : c ∈ untitled) : isIllegalChar c = false := by
  fin_cases h <;> decide

/-- C1: for every content string and configuration, the stem produced by the
derivation step of `renameFile` (YAML skipping, header extraction, the
character scan with its ellipsis marker, whitespace normalization,
leading-dot stripping and the `Untitled` fallback) contains no character
from the illegal set `\ / : * ? " < > | # ^ [ ]`. -/
theorem derive_no_illegal_chars (s : PluginSettings) (content : List Char) :
    ∀ c ∈ deriveName s content, isIllegalChar c = false := by
  intro c hc
  unfold deriveName at hc
  by_cases hcase :
      strippedStem s content = [] ∨
        ((strippedStem s content).map Char.toUpper) ∈ illegalNames
  · rw [if_pos hcase] at hc
    exact untitled_legal hc
  · rw [if_neg hcase] at hc
    have h1 : c ∈ normalizedStem s content := by
      unfold strippedStem at hc
      exact (List.dropWhile_sublist _).subset hc
    unfold normalizedStem at h1
    rcases mem_collapseWS h1 with h2 | h2
    · subst h2; decide
    · exact scanStem_chars (by intro x hx; simp at hx) (mem_trimWS h2)

/-- C1 witness: a concrete application of `derive_no_illegal_chars`. -/
theorem derive_no_illegal_chars_witness :
    ('H' ∈ deriveName DEFAULT_SETTINGS (("Hello").data)) ∧ isIllegalChar 'H' = false :=
  ⟨by decide, derive_no_illegal_chars DEFAULT_SETTINGS (("Hello").data) 'H' (by decide)⟩

/-- C2: the derived stem never starts with `.`, and whenever the
post-normalization, post-dot-stripping result is empty or case-insensitively
matches a reserved device name, the derived stem is exactly `Untitled`. -/
theorem derive_no_leading_dot_and_fallback (s : PluginSettings) (content : List Char) :
    (deriveName s content).head? ≠ some '.' ∧
      ((strippedStem s content = [] ∨
          ((strippedStem s content).map Char.toUpper) ∈ illegalNames) →
        deriveName s content = untitled) := by
  constructor
  · unfold deriveName
    by_cases hcase :
        strippedStem s content = [] ∨
          ((strippedStem s content).map Char.toUpper) ∈ illegalNames
    · rw [if_pos hcase]; decide
    · rw [if_neg hcase]
      intro h
      unfold strippedStem at h
      have h5 := head?_dropWhileB h
      simp at h5
  · intro h
    unfold deriveName
    rw [if_pos h]

/-- C2 witness: the reserved name `con` (case-insensitively `CON`) falls back
to `Untitled`, and its derived stem does not start with a dot. -/
theorem derive_no_leading_dot_and_fallback_witness :
    (deriveName DEFAULT_SETTINGS (("con").data)).head? ≠ some '.' ∧
      deriveName DEFAULT_SETTINGS (("con").data) = untitled :=
  ⟨(derive_no_leading_dot_and_fallback DEFAULT_SETTINGS (("con").data)).1,
    (derive_no_leading_dot_and_fallback DEFAULT_SETTINGS (("con").data)).2 (by decide)⟩

theorem fromDecimal_append_digit (l : List Char) (c : Char) :
    fromDecimal (l ++ [c]) = fromDecimal l * 10 + (c.toNat - 48) := by
  unfold fromDecimal
  rw [List.foldl_append]
  rfl

theorem digitChar_roundtrip {d : Nat} (h : d < 10) : (Nat.digitChar d).toNat - 48 = d := by
  interval_cases d <;> decide

theorem fromDecimal_toDecimalAux :
    ∀ {fuel n : Nat}, n < fuel → fromDecimal (toDecimalAux fuel n) = n
  | 0, n, h => by omega
  | fuel + 1, n, h => by
    unfold toDecimalAux
    by_cases h10 : n < 10
    · rw [if_pos h10]
      unfold fromDecimal
      simp [digitChar_roundtrip h10]
    · rw [if_neg h10]
      rw [fromDecimal_append_digit]
      have hdiv : n / 10 < n := Nat.div_lt_self (by omega) (by omega)
      have hrec : n / 10 < fuel := by omega
      rw [fromDecimal_toDecimalAux hrec, digitChar_roundtrip (Nat.mod_lt n (by omega))]
      omega

theorem toDecimal_injective {m n : Nat} (h : toDecimal m = toDecimal n) : m = n := by
  have hm : fromDecimal (toDecimalAux (m + 1) m) = m :=
    fromDecimal_toDecimalAux (Nat.lt_succ_self m)
  have hn : fromDecimal (toDecimalAux (n + 1) n) = n :=
    fromDecimal_toDecimalAux (Nat.lt_succ_self n)
  unfold toDecimal at h
  rw [h] at hm
  rw [hn] at hm
  omega

theorem candidate_inj {par stem : List Char} {m n : Nat} (_hm : 1 ≤ m) (_hn : 1 ≤ n)
    (h : candidate par stem m = candidate par stem n) : m = n := by
  unfold candidate at h
  by_cases hm1 : m = 1 <;> by_cases hn1 : n = 1
  · omega
  · rw [if_pos hm1, if_neg hn1] at h
    have h1 := List.append_cancel_left h
    injection h1 with _ h2
    have h3 := List.append_cancel_left h2
    have h4 := congrArg List.head? h3
    simp at h4
  · rw [if_neg hm1, if_pos hn1] at h
    have h1 := List.append_cancel_left h
    injection h1 with _ h2
    have h3 := List.append_cancel_left h2
    have h4 := congrArg List.head? h3
    simp at h4
  · rw [if_neg hm1, if_neg hn1] at h
    have h1 := List.append_cancel_left h
    injection h1 with _ h2
    have h3 := List.append_cancel_left h2
    injection h3 with _ h3a
    injection h3a with _ h4
    have hlen : (toDecimal m).length = (toDecimal n).length := by
      have h5 := congrArg List.length h4
      simp at h5
      omega
    exact toDecimal_injective (List.append_inj h4 hlen).1

/-- If the candidates `1, …, n-1` are all occupied then `n - 1` distinct
paths lie in `vault ++ temp`, so `n - 1` is at most its length. -/
theorem occupied_candidates_bound {vault temp : List (List Char)} {par stem : List Char}
    {n : Nat} (h : ∀ m, 1 ≤ m → m < n → occupiedPath vault temp (candidate par stem m)) :
    n - 1 ≤ vault.length + temp.length := by
  have hcard : (Finset.Ico 1 n).card ≤ (vault ++ temp).toFinset.card := by
    refine Finset.card_le_card_of_injOn (candidate par stem) ?_ ?_
    · intro m hm
      rw [Finset.mem_Ico] at hm
      rw [List.mem_toFinset, List.mem_append]
      exact h m hm.1 hm.2
    · intro a ha b hb hab
      rw [Finset.coe_Ico, Set.mem_Ico] at ha hb
      exact candidate_inj ha.1 hb.1 hab
  have h2 := List.toFinset_card_le (vault ++ temp)
  rw [Nat.card_Ico] at hcard
  simp only [List.length_append] at h2
  omega

/-- Running the duplicate-checker loop from counter `c0`: when all candidates
before `n` are occupied and differ from the file's own path and candidate `n`
is unoccupied, the loop commits to candidate `n`. -/
theorem dupLoop_run_to_free {vault temp : List (List Char)} {filePath par stem : List Char}
    {n : Nat} :
    ∀ {fuel c0 : Nat},
      (∀ m, c0 ≤ m → m < n → occupiedPath vault temp (candidate par stem m) ∧
        candidate par stem m ≠ filePath) →
      ¬ occupiedPath vault temp (candidate par stem n) →
      c0 ≤ n → n - c0 < fuel →
      dupLoop vault temp filePath par stem fuel c0 = some (some (candidate par stem n))
  | 0, c0, _, _, _, hfuel => by omega
  | fuel + 1, c0, hocc, hfree, hc0, hfuel => by
    unfold dupLoop
    by_cases hc : c0 = n
    · subst hc
      rw [if_neg hfree]
    · have hlt : c0 < n := by omega
      obtain ⟨ho, hne⟩ := hocc c0 (le_refl c0) hlt
      rw [if_pos ho, if_neg (fun he => hne he.symm)]
      exact dupLoop_run_to_free (fun m hm1 hm2 => hocc m (by omega) hm2) hfree
        (by omega) (by omega)

/-- Running the duplicate-checker loop from counter `c0`: when all candidates
before `n` are occupied and differ from the file's own path and candidate `n`
is occupied and equals the file's own path, the loop takes the early return. -/
theorem dupLoop_run_to_self {vault temp : List (List Char)} {filePath par stem : List Char}
    {n : Nat} :
    ∀ {fuel c0 : Nat},
      (∀ m, c0 ≤ m → m < n → occupiedPath vault temp (candidate par stem m) ∧
        candidate par stem m ≠ filePath) →
      occupiedPath vault temp (candidate par stem n) →
      filePath = candidate par stem n →
      c0 ≤ n → n - c0 < fuel →
      dupLoop vault temp filePath par stem fuel c0 = some none
  | 0, c0, _, _, _, _, hfuel => by omega
  | fuel + 1, c0, hocc, hoccn, hself, hc0, hfuel => by
    unfold dupLoop
    by_cases hc : c0 = n
    · subst hc
      rw [if_pos hoccn, if_pos hself]
    · have hlt : c0 < n := by omega
      obtain ⟨ho, hne⟩ := hocc c0 (le_refl c0) hlt
      rw [if_pos ho, if_neg (fun he => hne he.symm)]
      exact dupLoop_run_to_self (fun m hm1 hm2 => hocc m (by omega) hm2) hoccn hself
        (by omega) (by omega)

/-- C3: when the candidate path for the derived stem is occupied (by an
existing file or a batch-reserved path), collision resolution probes the
suffixed candidates `stem (2)`, `stem (3)`, … in order and commits the
rename to the first unoccupied one. -/
theorem collision_commits_first_free (vault temp : List (List Char)) (count : Nat)
    (s : PluginSettings) (filePath parentPath content : List Char) (noDelay : Bool)
    (n : Nat) (hn : 1 ≤ n)
    (hocc : ∀ m, 1 ≤ m → m < n →
      occupiedPath vault temp (candidate parentPath (deriveName s content) m) ∧
        candidate parentPath (deriveName s content) m ≠ filePath)
    (hfree : ¬ occupiedPath vault temp (candidate parentPath (deriveName s content) n)) :
    (renameCore vault temp count s filePath parentPath content noDelay).outcome
      = .renamed (candidate parentPath (deriveName s content) n) := by
  have hbound : n - 1 ≤ vault.length + temp.length :=
    occupied_candidates_bound (fun m h1 h2 => (hocc m h1 h2).1)
  have hloop := dupLoop_run_to_free hocc hfree hn
    (show n - 1 < vault.length + temp.length + 2 by omega)
  simp only [renameCore, hloop]

/-- C3 witness: with `folder/Untitled.md` and `folder/Untitled (2).md`
already present, a third document deriving `Untitled` is renamed to
`folder/Untitled (3).md`. -/
theorem collision_commits_first_free_witness :
    (renameCore [("folder/Untitled.md").data, ("folder/Untitled (2).md").data] [] 0
        DEFAULT_SETTINGS (("folder/x.md").data) (("folder").data) (("Untitled").data)
        false).outcome
      = .renamed (("folder/Untitled (3).md").data) := by
  have h := collision_commits_first_free
    [("folder/Untitled.md").data, ("folder/Untitled (2).md").data] [] 0
    DEFAULT_SETTINGS (("folder/x.md").data) (("folder").data) (("Untitled").data)
    false 3 (by omega)
    (by intro m h1 h2; interval_cases m <;> exact ⟨by decide, by decide⟩)
    (by decide)
  rw [h]
  decide

/-- C4: when the candidate path reached during collision resolution (the
base candidate or any suffixed one) equals the document's own current path,
`renameFile` returns early: no storage rename is issued and both
`tempNewPaths` and `renamedFileCount` are left unchanged. -/
theorem rename_noop_on_own_path (vault temp : List (List Char)) (count : Nat)
    (s : PluginSettings) (filePath parentPath content : List Char) (noDelay : Bool)
    (n : Nat) (hn : 1 ≤ n)
    (hself : filePath = candidate parentPath (deriveName s content) n)
    (hvault : filePath ∈ vault)
    (hocc : ∀ m, 1 ≤ m → m < n →
      occupiedPath vault temp (candidate parentPath (deriveName s content) m) ∧
        candidate parentPath (deriveName s content) m ≠ filePath) :
    renameCore vault temp count s filePath parentPath content noDelay
      = ⟨.unchanged, temp, count⟩ := by
  have hbound : n - 1 ≤ vault.length + temp.length :=
    occupied_candidates_bound (fun m h1 h2 => (hocc m h1 h2).1)
  have hoccn : occupiedPath vault temp (candidate parentPath (deriveName s content) n) :=
    Or.inl (hself ▸ hvault)
  have hloop := dupLoop_run_to_self hocc hoccn hself hn
    (show n - 1 < vault.length + temp.length + 2 by omega)
  simp only [renameCore, hloop]

/-- C4 witness: rerunning `renameFile` on a document already named
`folder/Untitled.md` whose content derives `Untitled` changes nothing. -/
theorem rename_noop_on_own_path_witness :
    renameCore [("folder/Untitled.md").data] [] 7 DEFAULT_SETTINGS
        (("folder/Untitled.md").data) (("folder").data) (("Untitled").data) true
      = ⟨.unchanged, [], 7⟩ :=
  rename_noop_on_own_path [("folder/Untitled.md").data] [] 7 DEFAULT_SETTINGS
    (("folder/Untitled.md").data) (("folder").data) (("Untitled").data) true
    1 (by omega) (by decide) (by decide) (by intro m h1 h2; omega)

/-- C5 (code bug): with sub-folder inclusion on and the multi-segment target
folder `a/b`, `inTargetFolder` compares only the first path segment of the
file's parent with the whole target-folder string, so a file directly inside
`a/b` — and one inside `a/b/c` — is not eligible, contradicting the code's
own comments ("True if file is in user's target folder or its subfolders"),
the setting description ("Also target files in subfolders of target
folder.") and the README example target `My Notes/Quick Notes`. -/
theorem inTargetFolder_multiseg_subfolder_false :
    inTargetFolder (some (("a/b").data))
        { DEFAULT_SETTINGS with targetFolder := ("a/b").data, includeSubfolder := true }
      = false ∧
    inTargetFolder (some (("a/b/c").data))
        { DEFAULT_SETTINGS with targetFolder := ("a/b").data, includeSubfolder := true }
      = false := by
  decide

/-- C6 counterexample: on content `#abcdefghijk` with `charCount = 10`, the
source's scan (whose index counts every scanned character, including the
rejected `#`) stops after buffering nine characters, while the claim's
eligible-characters-only counting would buffer ten. -/
theorem scan_eligible_count_differs :
    scanStem 10 false 0 (("#abcdefghijk").data) [] = ("abcdefghi...").data ∧
    scanStemSpecC6 10 false 0 (("#abcdefghijk").data) [] = ("abcdefghij...").data ∧
    scanStem 10 false 0 (("#abcdefghijk").data) []
      ≠ scanStemSpecC6 10 false 0 (("#abcdefghijk").data) [] := by
  decide

theorem scanStem_overflow_eq {cc : Nat} :
    ∀ {content : List Char} {i : Nat} {acc : List Char}, i ≤ cc → cc - i < content.length →
      scanStem cc false i content acc
        = trimEndWS (acc ++ (content.take (cc - i)).filter (fun c => ! isIllegalChar c))
            ++ ellipsis
  | [], _, _, _, h2 => by simp at h2
  | c :: rest, i, acc, h1, h2 => by
    unfold scanStem
    by_cases hover : i ≥ cc
    · have hcc : cc - i = 0 := by omega
      rw [if_pos hover, hcc]
      simp
    · rw [if_neg hover]
      have hnl : (c == '\n' && false) = false := by simp
      rw [hnl, if_neg (by simp)]
      obtain ⟨k, hk⟩ : ∃ k, cc - i = k + 1 := ⟨cc - i - 1, by omega⟩
      have hk1 : cc - (i + 1) = k := by omega
      by_cases hil : isIllegalChar c
      · rw [if_pos hil]
        rw [scanStem_overflow_eq (by omega) (by simp at h2; omega)]
        rw [hk, hk1, List.take_succ_cons, List.filter_cons]
        simp [hil]
      · rw [if_neg hil]
        rw [scanStem_overflow_eq (by omega) (by simp at h2; omega)]
        rw [hk, hk1, List.take_succ_cons, List.filter_cons]
        simp only [hil, Bool.not_false, if_pos]
        rw [List.append_assoc]
        simp

/-- C6 amended: the scan index counts every scanned character, rejected
illegal characters included, so with `useFirstLine` off and content longer
than `charCount` the scan buffers the illegal-filtered first `charCount`
characters, trims trailing whitespace and appends the ellipsis marker. -/
theorem scan_truncates_at_raw_index (cc : Nat) (content : List Char)
    (h : cc < content.length) :
    scanStem cc false 0 content []
      = trimEndWS ((content.take cc).filter (fun c => ! isIllegalChar c)) ++ ellipsis := by
  have h0 := @scanStem_overflow_eq cc content 0 [] (Nat.zero_le cc) h
  simpa using h0

/-- C6 amended witness: 200 plain characters with `charCount = 50`. -/
theorem scan_truncates_at_raw_index_witness :
    50 < (List.replicate 200 'a').length ∧
      scanStem 50 false 0 (List.replicate 200 'a') []
        = trimEndWS (((List.replicate 200 'a').take 50).filter (fun c => ! isIllegalChar c))
            ++ ellipsis :=
  ⟨by rw [List.length_replicate]; omega,
    scan_truncates_at_raw_index 50 (List.replicate 200 'a')
      (by rw [List.length_replicate]; omega)⟩

/-- C7 counterexample: on the content `------` (a single line of six
hyphens) the source's front-matter skip fires — it matches the substring
`---` at indices 0 and 3 and empties the content — while the claim
(delimiters are whole lines consisting solely of three hyphens) requires
the content to be left entirely unchanged. -/
theorem yaml_skip_differs_from_line_delimiters :
    yamlStrip true (("------").data) = [] ∧
    frontMatterSpecC7 (("------").data) = ("------").data ∧
    yamlStrip true (("------").data) ≠ frontMatterSpecC7 (("------").data) := by
  decide

/-- C7 amended: the skip fires whenever the content merely starts with the
substring `---`; it cuts at the next occurrence of the substring `---` (not
necessarily a delimiter line); with no such second occurrence the content is
left entirely unchanged; and the claim's own example still derives from
`Hello world`. -/
theorem yaml_skip_substring_semantics :
    (∀ content : List Char,
        subIndex (content.drop 3) (("---").data) = none → yamlStrip true content = content) ∧
      deriveName DEFAULT_SETTINGS (("---\ntitle: x\n---\nHello world").data)
        = deriveName DEFAULT_SETTINGS (("Hello world").data) := by
  constructor
  · intro content h
    unfold yamlStrip
    by_cases hp : (("---").data).isPrefixOf content
    · simp [hp, h]
    · simp [hp]
  · decide

/-- C7 amended witness: a concrete open front-matter block is left
unchanged, via `yaml_skip_substring_semantics`. -/
theorem yaml_skip_substring_semantics_witness :
    subIndex ((("---\ntitle: open").data).drop 3) (("---").data) = none ∧
      yamlStrip true (("---\ntitle: open").data) = ("---\ntitle: open").data :=
  ⟨by decide, yaml_skip_substring_semantics.1 (("---\ntitle: open").data) (by decide)⟩

/-- C8 counterexample: debounce state is global, not keyed by path.  With a
500ms interval and edits to `A` at t=0, `B` at t=100 and `A` again at t=200,
the edit to `B` overwrites the shared timer handle, so the third edit cannot
cancel A's first timer: A's rename body runs twice (at t=500, timed from the
first edit, and at t=700), where the claim requires exactly one run for A,
500ms after its last edit. -/
theorem debounce_interference_counterexample :
    (simulate 500 10 [(0, ("A.md").data), (100, ("B.md").data), (200, ("A.md").data)]
          initDebounce).executions
        = [((("A.md").data), 500), ((("B.md").data), 600), ((("A.md").data), 700)] ∧
      ((simulate 500 10 [(0, ("A.md").data), (100, ("B.md").data), (200, ("A.md").data)]
            initDebounce).executions.filter (fun e => decide (e.1 = ("A.md").data))).length
        = 2 := by
  decide

/-- C8 amended: with no interleaved edits to other documents, consecutive
edits to one document do cancel-and-restart the single global timer: two
edits 100ms apart with a 500ms interval produce exactly one derive/rename
execution, fired 500ms after the second edit. -/
theorem debounce_single_doc_trailing_edge :
    (simulate 500 10 [(0, ("A.md").data), (100, ("A.md").data)] initDebounce).executions
      = [((("A.md").data), 600)] := by
  decide

/-- A committed destination leaving the duplicate checker is unoccupied: the
loop only exits with a path that is neither in storage nor reserved. -/
theorem dupLoop_renamed_free {vault temp : List (List Char)} {filePath par stem : List Char} :
    ∀ {fuel c0 : Nat} {p : List Char},
      dupLoop vault temp filePath par stem fuel c0 = some (some p) →
      ¬ occupiedPath vault temp p
  | 0, _, _, h => by simp [dupLoop] at h
  | fuel + 1, c0, p, h => by
    unfold dupLoop at h
    by_cases ho : occupiedPath vault temp (candidate par stem c0)
    · rw [if_pos ho] at h
      by_cases hf : filePath = candidate par stem c0
      · rw [if_pos hf] at h; simp at h
      · rw [if_neg hf] at h
        exact dupLoop_renamed_free h
    · rw [if_neg ho] at h
      simp only [Option.some.injEq] at h
      rw [← h]
      exact ho

/-- A committed destination leaving the duplicate checker is one of the
probed candidates. -/
theorem dupLoop_renamed_candidate {vault temp : List (List Char)}
    {filePath par stem : List Char} :
    ∀ {fuel c0 : Nat} {p : List Char},
      dupLoop vault temp filePath par stem fuel c0 = some (some p) →
      ∃ n, c0 ≤ n ∧ p = candidate par stem n
  | 0, _, _, h => by simp [dupLoop] at h
  | fuel + 1, c0, p, h => by
    unfold dupLoop at h
    by_cases ho : occupiedPath vault temp (candidate par stem c0)
    · rw [if_pos ho] at h
      by_cases hf : filePath = candidate par stem c0
      · rw [if_pos hf] at h; simp at h
      · rw [if_neg hf] at h
        obtain ⟨n, hn1, hn2⟩ := dupLoop_renamed_candidate h
        exact ⟨n, by omega, hn2⟩
    · rw [if_neg ho] at h
      simp only [Option.some.injEq] at h
      exact ⟨c0, le_refl c0, h.symm⟩

/-- Case analysis of one `renameFile` body: either it commits a rename to an
unoccupied path (reserving it in `tempNewPaths` when `noDelay` is on and
incrementing the counter), or it returns early leaving all state unchanged. -/
theorem renameCore_cases (vault temp : List (List Char)) (count : Nat) (s : PluginSettings)
    (filePath parentPath content : List Char) (noDelay : Bool) :
    (∃ p, renameCore vault temp count s filePath parentPath content noDelay
        = ⟨.renamed p, if noDelay then temp ++ [p] else temp, count + 1⟩ ∧
        ¬ occupiedPath vault temp p) ∨
      renameCore vault temp count s filePath parentPath content noDelay
        = ⟨.unchanged, temp, count⟩ := by
  rcases hdl : dupLoop vault temp filePath parentPath (deriveName s content)
      (vault.length + temp.length + 2) 1 with _ | op
  · refine Or.inr ?_
    simp only [renameCore, hdl]
  · rcases op with _ | p
    · refine Or.inr ?_
      simp only [renameCore, hdl]
    · refine Or.inl ⟨p, ?_, dupLoop_renamed_free hdl⟩
      simp only [renameCore, hdl]

/-- Strengthened induction for the batch: given that every document's
current path is in storage and the documents' paths are pairwise distinct,
the final paths (new path when renamed, original path otherwise) are
pairwise distinct, and each of them is either one of the documents'
original paths or a fresh path outside both storage and the initial
reservation set. -/
theorem runBatch_distinct_aux (vault : List (List Char)) (s : PluginSettings) :
    ∀ (docs : List DocFile) (temp : List (List Char)) (count : Nat),
      (∀ d ∈ docs, d.path ∈ vault) → (docs.map DocFile.path).Nodup →
      ((runBatch vault s docs temp count).1.map (fun x => finalPath x.1 x.2)).Nodup ∧
        ∀ q ∈ (runBatch vault s docs temp count).1.map (fun x => finalPath x.1 x.2),
          q ∈ docs.map DocFile.path ∨ (q ∉ temp ∧ q ∉ vault)
  | [], temp, count, _, _ => by simp [runBatch]
  | d :: ds, temp, count, hv, hnd => by
    have hvd : d.path ∈ vault := hv d (List.mem_cons_self d ds)
    have hvds : ∀ x ∈ ds, x.path ∈ vault := fun x hx => hv x (List.mem_cons_of_mem d hx)
    simp only [List.map_cons, List.nodup_cons] at hnd
    rcases renameCore_cases vault temp count s d.path d.parentPath d.content true with
      ⟨p, heq, hfree⟩ | heq
    · have hpv : p ∉ vault := fun hc => hfree (Or.inl hc)
      have hpt : p ∉ temp := fun hc => hfree (Or.inr hc)
      obtain ⟨ih1, ih2⟩ := runBatch_distinct_aux vault s ds (temp ++ [p]) (count + 1)
        hvds hnd.2
      simp only [runBatch, heq, if_pos, List.map_cons, finalPath]
      constructor
      · rw [List.nodup_cons]
        refine ⟨?_, ih1⟩
        intro hp
        rcases ih2 p hp with hq | ⟨hq1, _⟩
        · obtain ⟨x, hx, hxp⟩ := List.mem_map.mp hq
          exact hpv (hxp ▸ hvds x hx)
        · exact hq1 (List.mem_append.mpr (Or.inr (List.mem_singleton.mpr rfl)))
      · intro q hq
        rcases List.mem_cons.mp hq with rfl | hq
        · exact Or.inr ⟨hpt, hpv⟩
        · rcases ih2 q hq with h | ⟨h1, h2⟩
          · exact Or.inl (List.mem_cons_of_mem _ h)
          · exact Or.inr ⟨fun hc => h1 (List.mem_append.mpr (Or.inl hc)), h2⟩
    · obtain ⟨ih1, ih2⟩ := runBatch_distinct_aux vault s ds temp count hvds hnd.2
      simp only [runBatch, heq, List.map_cons, finalPath]
      constructor
      · rw [List.nodup_cons]
        refine ⟨?_, ih1⟩
        intro hp
        rcases ih2 d.path hp with hq | ⟨_, hq2⟩
        · exact hnd.1 hq
        · exact hq2 hvd
      · intro q hq
        rcases List.mem_cons.mp hq with rfl | hq
        · exact Or.inl (List.mem_cons_self _ _)
        · rcases ih2 q hq with h | ⟨h1, h2⟩
          · exact Or.inl (List.mem_cons_of_mem _ h)
          · exact Or.inr ⟨h1, h2⟩

/-- C9: during a batch "rename all", every document's winning destination is
reserved in `tempNewPaths` before its storage rename is issued and every
collision probe checks that set, so the final paths of the processed
documents (new path when renamed, kept path otherwise) are pairwise
distinct — any number of documents deriving the same stem receive distinct,
collision-free destinations. -/
theorem batch_destinations_distinct (vault : List (List Char)) (s : PluginSettings)
    (docs : List DocFile) (temp : List (List Char)) (count : Nat)
    (h1 : ∀ d ∈ docs, d.path ∈ vault) (h2 : (docs.map DocFile.path).Nodup) :
    ((runBatch vault s docs temp count).1.map (fun x => finalPath x.1 x.2)).Nodup :=
  (runBatch_distinct_aux vault s docs temp count h1 h2).1

/-- C9 witness: three documents whose content all derives the stem `Hello`
receive the three pairwise-distinct destinations `folder/Hello.md`,
`folder/Hello (2).md` and `folder/Hello (3).md`. -/
theorem batch_destinations_distinct_witness :
    ((runBatch [("folder/a.md").data, ("folder/b.md").data, ("folder/c.md").data]
          DEFAULT_SETTINGS
          [⟨("folder/a.md").data, ("folder").data, ("Hello").data⟩,
            ⟨("folder/b.md").data, ("folder").data, ("Hello").data⟩,
            ⟨("folder/c.md").data, ("folder").data, ("Hello").data⟩]
          [] 0).1.map (fun x => finalPath x.1 x.2)).Nodup :=
  batch_destinations_distinct
    [("folder/a.md").data, ("folder/b.md").data, ("folder/c.md").data]
    DEFAULT_SETTINGS
    [⟨("folder/a.md").data, ("folder").data, ("Hello").data⟩,
      ⟨("folder/b.md").data, ("folder").data, ("Hello").data⟩,
      ⟨("folder/c.md").data, ("folder").data, ("Hello").data⟩]
    [] 0 (by decide) (by decide)

/-- Every probed candidate path ends in the hardcoded extension `.md`. -/
theorem candidate_ends_md (par stem : List Char) (n : Nat) :
    ∃ q, candidate par stem n = q ++ ['.', 'm', 'd'] := by
  unfold candidate
  by_cases h1 : n = 1
  · refine ⟨par ++ '/' :: stem, ?_⟩
    rw [if_pos h1]
    simp
  · refine ⟨par ++ '/' :: (stem ++ ' ' :: '(' :: (toDecimal n ++ [')'])), ?_⟩
    rw [if_neg h1]
    simp

/-- C10: every destination committed by `renameFile` ends in the hardcoded
extension `.md`, regardless of the document's own path or extension. -/
theorem renamed_path_ends_in_md (vault temp : List (List Char)) (count : Nat)
    (s : PluginSettings) (filePath parentPath content : List Char) (noDelay : Bool)
    (p : List Char)
    (h : (renameCore vault temp count s filePath parentPath content noDelay).outcome
      = .renamed p) :
    ∃ q, p = q ++ ['.', 'm', 'd'] := by
  rcases hdl : dupLoop vault temp filePath parentPath (deriveName s content)
      (vault.length + temp.length + 2) 1 with _ | op
  · simp [renameCore, hdl] at h
  · rcases op with _ | w
    · simp [renameCore, hdl] at h
    · simp only [renameCore, hdl, RenameOutcome.renamed.injEq] at h
      obtain ⟨n, _, hw⟩ := dupLoop_renamed_candidate hdl
      rw [← h, hw]
      exact candidate_ends_md parentPath (deriveName s content) n

/-- C10 witness: a non-Markdown file `folder/note.txt` whose content is
`hello` is renamed to `folder/hello.md` — the `.md` extension is imposed. -/
theorem renamed_path_ends_in_md_witness :
    ∃ q, ("folder/hello.md").data = q ++ ['.', 'm', 'd'] :=
  renamed_path_ends_in_md [("folder/note.txt").data] [] 0 DEFAULT_SETTINGS
    (("folder/note.txt").data) (("folder").data) (("hello").data) false
    (("folder/hello.md").data) (by decide)

end AutoFilename
